import Mathlib

/-!
# Event adapters: go-kit logger (`egokit`) and logrus formatter (`elogrus`)

A shallow embedding of

* `src/event/logging/egokit/gokit.go`  : `logger.Log`
* `src/event/logging/elogrus/logrus.go` : `formatter.Format`

Both adapters turn their arguments into calls on an event builder
(`event.To`, `Builder.At`, `Builder.With`, `Builder.Log`).  The builder and
the exporter behind it live in package `event`, which is outside the two
source files; they are modelled from the specification (section 6, "Event
Sink Interface") as a per-event accumulator whose `Log` appends one event to
the sink.

A Go panic is modelled as `Except.error`; the sink is threaded explicitly so
that the events delivered before a panic stay observable.
-/

set_option autoImplicit false

/-! ## Go values -/

namespace context

/-- An execution context (`context.Context`): an opaque carrier, identified
by `id`; `text` is what its `String` method prints. -/
structure Context where
  id : Nat
  text : String
  deriving DecidableEq, Repr

/-- The process-default context, `context.Background()`. -/
def Background : Context := ⟨0, "context.Background"⟩

end context

/-- A dynamically typed Go value (`interface{}`), as far as the adapters can
tell values apart: the nil interface, a `string`, an integer, a boolean, a
value implementing `context.Context`, or any other object (carrying the text
that `%v` prints for it). -/
inductive GoValue where
  | nil
  | str (s : String)
  | int (n : Int)
  | bool (b : Bool)
  | ctx (c : context.Context)
  | obj (repr : String)
  deriving DecidableEq, Repr

/-- The two ways `logger.Log` can panic: the type assertion
`keyvals[i].(string)` on a non-string, and the index `keyvals[i+1]` past the
end of the slice. -/
inductive Fault where
  | typeAssertion
  | indexOutOfRange
  deriving DecidableEq, Repr

/-- A Go `error` value; `Option GoError` is the `error` interface with
`none` for nil. -/
structure GoError where
  text : String
  deriving DecidableEq, Repr

/-- A `time.Time`, as an instant counted in nanoseconds. -/
abbrev Time := Int

namespace fmt

/-- The standard library's `fmt.Sprint` on a single operand (the `%v` verb). -/
def Sprint : GoValue → String
  | .nil => "<nil>"
  | .str s => s
  | .int n => toString n
  | .bool b => if b then "true" else "false"
  | .ctx c => c.text
  | .obj r => r

end fmt

/-! ## The event sink interface -/

namespace event

/-- Modelled from the spec: a Field (`event.Label`), a name with a value;
package `event` is not among the source files. -/
structure Label where
  name : String
  value : GoValue
  deriving DecidableEq, Repr

/-- Modelled from the spec: the Emitted Event handed to the sink (package
`event` is not among the source files).  `ctx` is the context the builder was
resolved from, `time` the explicit timestamp (`none` stands for "now"),
`labels` the Fields in the order they were attached. -/
structure Event where
  ctx : context.Context
  time : Option Time
  message : String
  labels : List Label
  deriving DecidableEq, Repr

/-- Modelled from the spec: the sink, as the sequence of events delivered so
far (package `event` is not among the source files). -/
abbrev Sink := List Event

/-- Modelled from the spec: the Builder, "a per-event accumulator obtained
from a sink" (package `event` is not among the source files).  The Go builder
is shared by reference, so a statement `b.With(l)` whose result is dropped
still updates `b`; here the updated builder is passed on explicitly. -/
structure Builder where
  ctx : context.Context
  time : Option Time
  labels : List Label
  deriving DecidableEq, Repr

/-- Modelled from the spec: `ResolveBuilder(context) -> Builder`, Go's
`event.To(ctx)`: a fresh builder bound to `ctx`, no explicit time, no Field. -/
def To (ctx : context.Context) : Builder := ⟨ctx, none, []⟩

/-- Modelled from the spec: `Builder.At(timestamp) -> Builder`, overriding
"now" by an explicit timestamp. -/
def Builder.At (b : Builder) (t : Time) : Builder := { b with time := some t }

/-- Modelled from the spec: `Builder.With(key, value) -> Builder`, attaching
one Field. -/
def Builder.With (b : Builder) (l : Label) : Builder := { b with labels := b.labels ++ [l] }

/-- Modelled from the spec: `Builder.Log(message)`, which "finalizes and
delivers": one event, with what the builder accumulated, reaches the sink. -/
def Builder.Log (b : Builder) (msg : String) (sink : Sink) : Sink :=
  sink ++ [⟨b.ctx, b.time, msg, b.labels⟩]

/-- Modelled from the spec: writing one Field into a Field set, "last write
for a duplicate name wins" (section 3). -/
def setField (fs : List Label) (l : Label) : List Label :=
  fs.filter (fun f => decide (f.name ≠ l.name)) ++ [l]

/-- Modelled from the spec: the Field set of an emitted event, "Field names
are unique within one emitted event; last write for a duplicate name wins"
(section 3): the attached Fields written one after the other. -/
def Event.fieldSet (e : Event) : List Label := e.labels.foldl setField []

end event

namespace keys

/-- A key of package `keys`: the name under which a value is attached. -/
structure Key where
  name : String
  deriving DecidableEq, Repr

/-- Go's `keys.Value(name)`: the key for an arbitrary value. -/
def Value (name : String) : Key := ⟨name⟩

/-- Go's `Of` on a value key: the Field `name = value`. -/
def Key.Of (k : Key) (v : GoValue) : event.Label := ⟨k.name, v⟩

end keys

namespace internal

/-- Modelled from the spec: the reserved level key `internal.LevelKey`
(package `internal` is not among the source files); Scenario C prints the
level Field as `level: 3`, an integer Field named `level`. -/
def LevelKey : keys.Key := ⟨"level"⟩

/-- Go's `Of` on the integer level key: the Field `level = n`. -/
def LevelKey.Of (n : Int) : event.Label := ⟨LevelKey.name, .int n⟩

end internal

/-! ## `egokit`: the go-kit logger -/

namespace egokit

/-- The loop of `logger.Log` (lines 39-47) on the rest `keyvals[i:]` of the
slice, with the builder and the pending message as loop state.  Each round
asserts `keyvals[i].(string)`, then reads `keyvals[i+1]`; either may panic. -/
def logLoop : List GoValue → event.Builder → String → Except Fault (event.Builder × String)
  | [], b, msg => .ok (b, msg)
  | .str key :: rest, b, msg =>
    match rest with
    | [] => .error .indexOutOfRange
    | value :: rest2 =>
      if key = "msg" ∨ key = "message" then
        logLoop rest2 b (fmt.Sprint value)
      else
        logLoop rest2 (b.With ((keys.Value key).Of value)) msg
  | _ :: _, _, _ => .error .typeAssertion

/-- Lines 37-49 of `logger.Log`: resolve the builder from `ctx`, run the loop
over the pair sequence, finalize with `b.Log(msg)` and return nil.  A panic in
the loop leaves the sink as it was. -/
def logPairs (ctx : context.Context) (keyvals : List GoValue) (sink : event.Sink) :
    Except Fault (Option GoError) × event.Sink :=
  let b := event.To ctx
  match logLoop keyvals b "" with
  | .error f => (.error f, sink)
  | .ok (b, msg) => (.ok none, b.Log msg sink)

/-- The method `logger.Log(keyvals ...interface{}) error`: lines 30-36 pick
the context (the first argument when it is a `context.Context`, which is then
cut off the slice), the rest is `logPairs`. -/
def Log (keyvals : List GoValue) (sink : event.Sink) :
    Except Fault (Option GoError) × event.Sink :=
  match keyvals with
  | .ctx c :: rest => logPairs c rest sink
  | _ => logPairs context.Background keyvals sink

end egokit

/-! ## `elogrus`: the logrus formatter -/

namespace elogrus

/-- A `logrus.Entry`, with the fields `Format` reads.  `Context` is `none`
for a nil context; `Level` is logrus's `uint32` level; `Data` is the
`logrus.Fields` map, listed in the order the `range` loop visits it (Go leaves
that order open, so every order is a possible list). -/
structure Entry where
  Context : Option context.Context
  Time : Time
  Level : Fin 4294967296
  Message : String
  Data : List (String × GoValue)
  deriving DecidableEq, Repr

/-- The method `formatter.Format(e *logrus.Entry) ([]byte, error)`.  Both
results are `none` for Go's `nil, nil`.  The conversion `int(e.Level)` of the
`uint32` level keeps its value (Go's `int` taken as 64 bits wide). -/
def Format (e : Entry) (sink : event.Sink) :
    (Option (List Nat) × Option GoError) × event.Sink :=
  let ctx := match e.Context with
    | none => context.Background
    | some c => c
  let b := (event.To ctx).At e.Time
  let b := b.With (internal.LevelKey.Of (Int.ofNat e.Level.val))
  let b := e.Data.foldl (fun b kv => b.With ((keys.Value kv.1).Of kv.2)) b
  ((none, none), b.Log e.Message sink)

end elogrus

/-! ## Vocabulary of the specification -/

/-- The pair part of an argument sequence: what follows an optional leading
context. -/
def pairPart (kv : List GoValue) : List GoValue :=
  match kv.head? with
  | some (.ctx _) => kv.drop 1
  | _ => kv

/-- The context an argument sequence selects: its first element when that is
a context, else the background context. -/
def chosenContext (kv : List GoValue) : context.Context :=
  match kv.head? with
  | some (.ctx c) => c
  | _ => context.Background

/-- Whether a value is a Go `string`. -/
def GoValue.isString : GoValue → Bool
  | .str _ => true
  | _ => false

/-- The input shape assumption on a pair sequence: even length, and a string
at every key position (the even indices). -/
def WellShaped (kv : List GoValue) : Prop :=
  kv.length % 2 = 0 ∧ ∀ i, i < kv.length → i % 2 = 0 → (kv.getD i .nil).isString = true

/-- A pair sequence has a string at every key position (the even indices),
whatever its length. -/
def StringKeys (kv : List GoValue) : Prop :=
  ∀ i, i < kv.length → i % 2 = 0 → (kv.getD i .nil).isString = true

/-- The (key, value) pairs of a pair sequence, read two elements at a time. -/
def pairsOf : List GoValue → List (String × GoValue)
  | .str k :: v :: rest => (k, v) :: pairsOf rest
  | _ => []

/-- Whether a key is one of the reserved message keys. -/
def isMsgKey (k : String) : Bool := decide (k = "msg" ∨ k = "message")

/-- The Fields the specification expects from a pair list: the pairs whose
key is neither `msg` nor `message`, in input order. -/
def fieldPairs (ps : List (String × GoValue)) : List event.Label :=
  (ps.filter (fun p => !isMsgKey p.1)).map (fun p => ⟨p.1, p.2⟩)

/-- The message the specification expects from a pair list: the string form
of the value of the last pair keyed `msg` or `message`, else the empty
string. -/
def messageOf (ps : List (String × GoValue)) : String :=
  match (ps.filter (fun p => isMsgKey p.1)).getLast? with
  | some p => fmt.Sprint p.2
  | none => ""

/-- The value of the last pair with key `k`, if there is one. -/
def lastValueOf (k : String) (ps : List (String × GoValue)) : Option GoValue :=
  ((ps.filter (fun p => decide (p.1 = k))).getLast?).map Prod.snd

/-- The message after the loop: the string form of the last message pair,
else the message the loop started with. -/
def messageFrom (msg : String) (ps : List (String × GoValue)) : String :=
  match (ps.filter (fun p => isMsgKey p.1)).getLast? with
  | some p => fmt.Sprint p.2
  | none => msg

/-- The context an entry selects: its own when it has one, else the
background context. -/
def entryContext (e : elogrus.Entry) : context.Context :=
  match e.Context with
  | some c => c
  | none => context.Background

instance (kv : List GoValue) : Decidable (WellShaped kv) := by
  unfold WellShaped
  infer_instance

/-! ## Lemmas on the shape of pair sequences -/

theorem list_pair_induction {P : List GoValue → Prop} (h0 : P []) (h1 : ∀ x, P [x])
    (h2 : ∀ x y rest, P rest → P (x :: y :: rest)) : ∀ l, P l
  | [] => h0
  | [x] => h1 x
  | x :: y :: rest => h2 x y rest (list_pair_induction h0 h1 h2 rest)

theorem wellShaped_nil : WellShaped [] := by
  constructor
  · rfl
  · intro i hi
    simp at hi

theorem not_wellShaped_singleton (x : GoValue) : ¬ WellShaped [x] := by
  intro h
  have := h.1
  simp at this

theorem wellShaped_cons_cons (x y : GoValue) (rest : List GoValue) :
    WellShaped (x :: y :: rest) ↔ x.isString = true ∧ WellShaped rest := by
  constructor
  · intro h
    refine ⟨?_, ?_, ?_⟩
    · have := h.2 0 (by simp) (by simp)
      simpa using this
    · have := h.1
      simp only [List.length_cons] at this
      omega
    · intro i hi hev
      have := h.2 (i + 2) (by simp only [List.length_cons]; omega) (by omega)
      simpa using this
  · intro h
    refine ⟨?_, ?_⟩
    · have := h.2.1
      simp only [List.length_cons]
      omega
    · intro i hi hev
      match i, hi, hev with
      | 0, _, _ => simpa using h.1
      | 1, _, h1 => simp at h1
      | j + 2, hj, hj2 =>
        have := h.2.2 j (by simp only [List.length_cons] at hj; omega) (by omega)
        simpa using this

theorem isString_iff (x : GoValue) : x.isString = true ↔ ∃ s, x = .str s := by
  cases x <;> simp [GoValue.isString]

/-- On a well-shaped pair sequence, reading it two at a time loses nothing:
the pairs, laid out flat again, are the sequence. -/
theorem pairsOf_flatten (kv : List GoValue) (h : WellShaped kv) :
    (pairsOf kv).flatMap (fun p => [.str p.1, p.2]) = kv := by
  induction kv using list_pair_induction with
  | h0 => rfl
  | h1 x => exact absurd h (not_wellShaped_singleton x)
  | h2 x y rest ih =>
    rw [wellShaped_cons_cons] at h
    obtain ⟨s, rfl⟩ := (isString_iff x).1 h.1
    simp [pairsOf, ih h.2]

/-! ## Lemmas on the loop of `Log` -/

theorem messageFrom_nil (msg : String) : messageFrom msg [] = msg := rfl

theorem messageFrom_cons_msg (msg : String) (k : String) (v : GoValue)
    (ps : List (String × GoValue)) (hk : isMsgKey k = true) :
    messageFrom msg ((k, v) :: ps) = messageFrom (fmt.Sprint v) ps := by
  unfold messageFrom
  simp only [List.filter_cons, hk, if_true]
  cases hps : List.filter (fun p => isMsgKey p.1) ps with
  | nil => simp
  | cons a l =>
    simp only [List.getLast?_cons_cons]
    rw [List.getLast?_eq_getLast _ (List.cons_ne_nil a l)]

theorem messageFrom_cons_other (msg : String) (k : String) (v : GoValue)
    (ps : List (String × GoValue)) (hk : isMsgKey k = false) :
    messageFrom msg ((k, v) :: ps) = messageFrom msg ps := by
  unfold messageFrom
  simp [List.filter_cons, hk]

theorem messageOf_eq (ps : List (String × GoValue)) : messageOf ps = messageFrom "" ps := rfl

theorem fieldPairs_cons_msg (k : String) (v : GoValue) (ps : List (String × GoValue))
    (hk : isMsgKey k = true) : fieldPairs ((k, v) :: ps) = fieldPairs ps := by
  simp [fieldPairs, List.filter_cons, hk]

theorem fieldPairs_cons_other (k : String) (v : GoValue) (ps : List (String × GoValue))
    (hk : isMsgKey k = false) : fieldPairs ((k, v) :: ps) = ⟨k, v⟩ :: fieldPairs ps := by
  simp [fieldPairs, List.filter_cons, hk]

/-- The loop on a well-shaped pair sequence runs to its end: the builder has
gained the non-message pairs as Fields, in order, and the pending message is
that of the last message pair. -/
theorem logLoop_wellShaped (kv : List GoValue) (h : WellShaped kv) (b : event.Builder)
    (msg : String) :
    egokit.logLoop kv b msg =
      .ok (⟨b.ctx, b.time, b.labels ++ fieldPairs (pairsOf kv)⟩, messageFrom msg (pairsOf kv)) := by
  induction kv using list_pair_induction generalizing b msg with
  | h0 => simp [egokit.logLoop, pairsOf, fieldPairs, messageFrom_nil]
  | h1 x => exact absurd h (not_wellShaped_singleton x)
  | h2 x y rest ih =>
    rw [wellShaped_cons_cons] at h
    obtain ⟨s, rfl⟩ := (isString_iff x).1 h.1
    by_cases hk : s = "msg" ∨ s = "message"
    · have hm : isMsgKey s = true := by simp [isMsgKey, hk]
      rw [egokit.logLoop]
      simp only [hk, if_true]
      rw [ih h.2, pairsOf, fieldPairs_cons_msg _ _ _ hm, messageFrom_cons_msg _ _ _ _ hm]
    · have hm : isMsgKey s = false := by simp [isMsgKey, hk]
      rw [egokit.logLoop]
      simp only [hk, if_false]
      rw [ih h.2, pairsOf, fieldPairs_cons_other _ _ _ hm, messageFrom_cons_other _ _ _ _ hm]
      simp [event.Builder.With, keys.Value, keys.Key.Of]

/-- The loop on a pair sequence that is not well-shaped panics. -/
theorem logLoop_not_wellShaped (kv : List GoValue) (h : ¬ WellShaped kv) (b : event.Builder)
    (msg : String) : ∃ f, egokit.logLoop kv b msg = .error f := by
  induction kv using list_pair_induction generalizing b msg with
  | h0 => exact absurd wellShaped_nil h
  | h1 x =>
    cases x <;> simp [egokit.logLoop]
  | h2 x y rest ih =>
    rw [wellShaped_cons_cons] at h
    cases x with
    | str s =>
      have hr : ¬ WellShaped rest := fun hw => h ⟨rfl, hw⟩
      rw [egokit.logLoop]
      by_cases hk : s = "msg" ∨ s = "message"
      · simp only [hk, if_true]
        exact ih hr _ _
      · simp only [hk, if_false]
        exact ih hr _ _
    | _ => simp [egokit.logLoop]

theorem wellShaped_iff (kv : List GoValue) :
    WellShaped kv ↔ kv.length % 2 = 0 ∧ StringKeys kv := Iff.rfl

theorem stringKeys_nil : StringKeys [] := by
  intro i hi
  simp at hi

theorem stringKeys_singleton (x : GoValue) : StringKeys [x] ↔ x.isString = true := by
  constructor
  · intro h
    simpa using h 0 (by simp) (by simp)
  · intro h i hi _
    have hi0 : i = 0 := by simpa using hi
    subst hi0
    simpa using h

theorem stringKeys_cons_cons (x y : GoValue) (rest : List GoValue) :
    StringKeys (x :: y :: rest) ↔ x.isString = true ∧ StringKeys rest := by
  constructor
  · intro h
    refine ⟨?_, ?_⟩
    · simpa using h 0 (by simp) (by simp)
    · intro i hi hev
      have := h (i + 2) (by simp only [List.length_cons]; omega) (by omega)
      simpa using this
  · intro h i hi hev
    match i, hi, hev with
    | 0, _, _ => simpa using h.1
    | 1, _, h1 => simp at h1
    | j + 2, hj, hj2 =>
      have := h.2 j (by simp only [List.length_cons] at hj; omega) (by omega)
      simpa using this

/-- The loop panics at the string assertion as soon as some key position
holds a non-string, whatever the length of the sequence. -/
theorem logLoop_typeAssertion (kv : List GoValue) (h : ¬ StringKeys kv) (b : event.Builder)
    (msg : String) : egokit.logLoop kv b msg = .error .typeAssertion := by
  induction kv using list_pair_induction generalizing b msg with
  | h0 => exact absurd stringKeys_nil h
  | h1 x =>
    rw [stringKeys_singleton] at h
    cases x <;> simp [GoValue.isString] at h <;> simp [egokit.logLoop]
  | h2 x y rest ih =>
    rw [stringKeys_cons_cons] at h
    cases x with
    | str s =>
      have hr : ¬ StringKeys rest := fun hw => h ⟨rfl, hw⟩
      rw [egokit.logLoop]
      by_cases hk : s = "msg" ∨ s = "message"
      · simp only [hk, if_true]
        exact ih hr _ _
      · simp only [hk, if_false]
        exact ih hr _ _
    | _ => simp [egokit.logLoop]

/-- The loop panics at the index `keyvals[i+1]` when every key position holds
a string and the length is odd: it reaches the last, unpaired key. -/
theorem logLoop_indexOutOfRange (kv : List GoValue) (h : StringKeys kv)
    (hodd : kv.length % 2 = 1) (b : event.Builder) (msg : String) :
    egokit.logLoop kv b msg = .error .indexOutOfRange := by
  induction kv using list_pair_induction generalizing b msg with
  | h0 => simp at hodd
  | h1 x =>
    rw [stringKeys_singleton] at h
    obtain ⟨s, rfl⟩ := (isString_iff x).1 h
    simp [egokit.logLoop]
  | h2 x y rest ih =>
    rw [stringKeys_cons_cons] at h
    obtain ⟨s, rfl⟩ := (isString_iff x).1 h.1
    have hr : rest.length % 2 = 1 := by
      simp only [List.length_cons] at hodd
      omega
    rw [egokit.logLoop]
    by_cases hk : s = "msg" ∨ s = "message"
    · simp only [hk, if_true]
      exact ih h.2 hr _ _
    · simp only [hk, if_false]
      exact ih h.2 hr _ _

/-- The three outcomes of `Log`, by the shape of the pair part. -/
theorem Log_outcome (kv : List GoValue) (sink : event.Sink) :
    (WellShaped (pairPart kv) ∧
      egokit.Log kv sink = (.ok none, sink ++ [⟨chosenContext kv, none,
        messageOf (pairsOf (pairPart kv)), fieldPairs (pairsOf (pairPart kv))⟩])) ∨
    (¬ StringKeys (pairPart kv) ∧ egokit.Log kv sink = (.error .typeAssertion, sink)) ∨
    (StringKeys (pairPart kv) ∧ (pairPart kv).length % 2 = 1 ∧
      egokit.Log kv sink = (.error .indexOutOfRange, sink)) := by
  have hLog : egokit.Log kv sink =
      egokit.logPairs (chosenContext kv) (pairPart kv) sink := by
    cases kv with
    | nil => rfl
    | cons x rest => cases x <;> rfl
  by_cases hs : StringKeys (pairPart kv)
  · by_cases hev : (pairPart kv).length % 2 = 0
    · have hw : WellShaped (pairPart kv) := ⟨hev, hs⟩
      refine Or.inl ⟨hw, ?_⟩
      rw [hLog]
      simp [egokit.logPairs, logLoop_wellShaped _ hw, event.To, event.Builder.Log, messageOf_eq]
    · have hodd : (pairPart kv).length % 2 = 1 := by omega
      refine Or.inr (Or.inr ⟨hs, hodd, ?_⟩)
      rw [hLog]
      simp [egokit.logPairs, logLoop_indexOutOfRange _ hs hodd]
  · refine Or.inr (Or.inl ⟨hs, ?_⟩)
    rw [hLog]
    simp [egokit.logPairs, logLoop_typeAssertion _ hs]

theorem Log_eq_logPairs (kv : List GoValue) (sink : event.Sink) :
    egokit.Log kv sink = egokit.logPairs (chosenContext kv) (pairPart kv) sink := by
  cases kv with
  | nil => rfl
  | cons x rest => cases x <;> rfl

theorem logPairs_wellShaped (c : context.Context) (kv : List GoValue) (sink : event.Sink)
    (h : WellShaped kv) :
    egokit.logPairs c kv sink =
      (.ok none, sink ++ [⟨c, none, messageOf (pairsOf kv), fieldPairs (pairsOf kv)⟩]) := by
  simp [egokit.logPairs, logLoop_wellShaped kv h, event.To, event.Builder.Log, messageOf_eq]

theorem logPairs_not_wellShaped (c : context.Context) (kv : List GoValue) (sink : event.Sink)
    (h : ¬ WellShaped kv) : ∃ f, egokit.logPairs c kv sink = (.error f, sink) := by
  obtain ⟨f, hf⟩ := logLoop_not_wellShaped kv h (event.To c) ""
  exact ⟨f, by simp [egokit.logPairs, hf]⟩

theorem mem_fieldPairs (ps : List (String × GoValue)) (k : String) (v : GoValue) :
    (⟨k, v⟩ : event.Label) ∈ fieldPairs ps ↔ (k, v) ∈ ps ∧ k ≠ "msg" ∧ k ≠ "message" := by
  simp only [fieldPairs, List.mem_map, List.mem_filter, isMsgKey]
  constructor
  · rintro ⟨⟨a, b⟩, ⟨hp, hm⟩, heq⟩
    simp only [event.Label.mk.injEq] at heq
    obtain ⟨rfl, rfl⟩ := heq
    simp at hm
    exact ⟨hp, hm.1, hm.2⟩
  · rintro ⟨hp, h1, h2⟩
    exact ⟨(k, v), ⟨hp, by simp [h1, h2]⟩, rfl⟩

/-! ## Lemmas on Field sets -/

theorem fieldSet_snoc (ls : List event.Label) (l : event.Label) :
    (ls ++ [l]).foldl event.setField [] = event.setField (ls.foldl event.setField []) l := by
  simp [List.foldl_append]

theorem filter_setField (fs : List event.Label) (l : event.Label) (k : String) :
    (event.setField fs l).filter (fun f => decide (f.name = k)) =
      if l.name = k then [l] else fs.filter (fun f => decide (f.name = k)) := by
  unfold event.setField
  rw [List.filter_append, List.filter_filter]
  by_cases hl : l.name = k
  · subst hl
    simp only [if_true]
    have : List.filter (fun a => decide (a.name = l.name) && decide (a.name ≠ l.name)) fs = [] := by
      rw [List.filter_eq_nil_iff]
      intro a _
      by_cases ha : a.name = l.name <;> simp [ha]
    rw [this]
    simp
  · simp only [hl, if_false]
    have : List.filter (fun a => decide (a.name = k) && decide (a.name ≠ l.name)) fs =
        List.filter (fun f => decide (f.name = k)) fs := by
      apply List.filter_congr
      intro a _
      by_cases ha : a.name = k
      · have hkl : ¬ k = l.name := fun h => hl h.symm
        simp [ha, hkl]
      · simp [ha]
    rw [this]
    simp [hl]

/-- In a Field set the Fields named `k` are the last attached Field named
`k`, if there is one, and nothing else. -/
theorem fieldSet_filter (ls : List event.Label) (k : String) :
    (ls.foldl event.setField []).filter (fun f => decide (f.name = k)) =
      ((ls.filter (fun f => decide (f.name = k))).getLast?).toList := by
  induction ls using List.reverseRecOn with
  | nil => rfl
  | append_singleton ls l ih =>
    rw [fieldSet_snoc, filter_setField, List.filter_append]
    by_cases hl : l.name = k
    · simp [hl]
    · simp [hl, ih]

theorem names_setField_nodup (fs : List event.Label) (l : event.Label)
    (h : (fs.map event.Label.name).Nodup) :
    ((event.setField fs l).map event.Label.name).Nodup := by
  unfold event.setField
  rw [List.map_append, List.nodup_append]
  refine ⟨?_, by simp, ?_⟩
  · exact (h.sublist ((List.filter_sublist fs).map event.Label.name))
  · intro a ha hb
    simp only [List.map_cons, List.map_nil, List.mem_singleton] at hb
    simp only [List.mem_map, List.mem_filter] at ha
    obtain ⟨f, ⟨_, hf⟩, rfl⟩ := ha
    simp at hf
    exact hf hb

/-- Field names are unique within a Field set. -/
theorem fieldSet_names_nodup (ls : List event.Label) :
    ((ls.foldl event.setField []).map event.Label.name).Nodup := by
  induction ls using List.reverseRecOn with
  | nil => simp
  | append_singleton ls l ih =>
    rw [fieldSet_snoc]
    exact names_setField_nodup _ _ ih

/-- Attached Fields with pairwise different names are their own Field set. -/
theorem fieldSet_of_nodup (ls : List event.Label) (h : (ls.map event.Label.name).Nodup) :
    ls.foldl event.setField [] = ls := by
  induction ls using List.reverseRecOn with
  | nil => rfl
  | append_singleton ls l ih =>
    rw [List.map_append, List.nodup_append] at h
    rw [fieldSet_snoc, ih h.1]
    unfold event.setField
    congr 1
    rw [List.filter_eq_self]
    intro a ha
    have hd := h.2.2
    simp only [decide_eq_true_eq]
    intro hn
    exact hd (List.mem_map_of_mem _ ha) (by simp [hn])

theorem filter_fieldPairs (ps : List (String × GoValue)) (k : String)
    (hk : isMsgKey k = false) :
    (fieldPairs ps).filter (fun f => decide (f.name = k)) =
      (ps.filter (fun p => decide (p.1 = k))).map (fun p => ⟨p.1, p.2⟩) := by
  induction ps with
  | nil => rfl
  | cons p ps ih =>
    obtain ⟨a, v⟩ := p
    by_cases ha : a = k
    · subst ha
      rw [fieldPairs_cons_other _ _ _ hk]
      simp [List.filter_cons, ih]
    · by_cases hm : isMsgKey a = true
      · rw [fieldPairs_cons_msg _ _ _ hm, ih]
        simp [List.filter_cons, ha]
      · have hm2 : isMsgKey a = false := by simpa using hm
        rw [fieldPairs_cons_other _ _ _ hm2]
        simp [List.filter_cons, ha, ih]

theorem mem_fieldSet (ls : List event.Label) (l : event.Label) :
    l ∈ ls.foldl event.setField [] ↔
      (ls.filter (fun f => decide (f.name = l.name))).getLast? = some l := by
  have h1 : l ∈ ls.foldl event.setField [] ↔
      l ∈ (ls.foldl event.setField []).filter (fun f => decide (f.name = l.name)) := by
    simp [List.mem_filter]
  rw [h1, fieldSet_filter]
  cases (ls.filter (fun f => decide (f.name = l.name))).getLast? with
  | none => simp
  | some a => simp [eq_comm]

/-- The Field set made of the non-message pairs: a Field `k = v` is in it
exactly when `k` is not a message key and `v` is the value of the last pair
keyed `k`. -/
theorem mem_fieldSet_fieldPairs (ps : List (String × GoValue)) (k : String) (v : GoValue) :
    (⟨k, v⟩ : event.Label) ∈ (fieldPairs ps).foldl event.setField [] ↔
      (k ≠ "msg" ∧ k ≠ "message" ∧ lastValueOf k ps = some v) := by
  rw [mem_fieldSet]
  by_cases hm : isMsgKey k = true
  · have hnil : (fieldPairs ps).filter (fun f => decide (f.name = k)) = [] := by
      rw [List.filter_eq_nil_iff]
      intro a ha hk
      obtain ⟨an, av⟩ := a
      have := (mem_fieldPairs ps an av).1 ha
      simp only [decide_eq_true_eq] at hk
      subst hk
      simp [isMsgKey] at hm
      rcases hm with hm | hm
      · exact this.2.1 hm
      · exact this.2.2 hm
    simp only [hnil]
    simp [isMsgKey] at hm
    constructor
    · intro h
      simp at h
    · rintro ⟨h1, h2, _⟩
      rcases hm with hm | hm
      · exact absurd hm h1
      · exact absurd hm h2
  · have hm2 : isMsgKey k = false := by simpa using hm
    have hk : k ≠ "msg" ∧ k ≠ "message" := by
      simp [isMsgKey] at hm2
      exact hm2
    show ((fieldPairs ps).filter (fun f => decide (f.name = k))).getLast? = some ⟨k, v⟩ ↔ _
    rw [filter_fieldPairs _ _ hm2, List.getLast?_map, lastValueOf]
    cases hl : (ps.filter (fun p => decide (p.1 = k))).getLast? with
    | none => simp
    | some p =>
      have hp : p ∈ ps.filter (fun p => decide (p.1 = k)) := List.mem_of_getLast?_eq_some hl
      have hpk : p.1 = k := by simpa using (List.mem_filter.1 hp).2
      simp [hpk, hk.1, hk.2]

/-! ## Lemmas on `Format` -/

theorem foldl_With (data : List (String × GoValue)) (b : event.Builder) :
    data.foldl (fun b kv => b.With ((keys.Value kv.1).Of kv.2)) b =
      ⟨b.ctx, b.time, b.labels ++ data.map (fun p => ⟨p.1, p.2⟩)⟩ := by
  induction data generalizing b with
  | nil => simp
  | cons p ps ih =>
    rw [List.foldl_cons, ih]
    simp [event.Builder.With, keys.Value, keys.Key.Of]

theorem Format_eq (e : elogrus.Entry) (sink : event.Sink) :
    elogrus.Format e sink =
      ((none, none), sink ++ [⟨entryContext e, some e.Time, e.Message,
        internal.LevelKey.Of (Int.ofNat e.Level.val) :: e.Data.map (fun p => ⟨p.1, p.2⟩)⟩]) := by
  unfold elogrus.Format
  simp only [foldl_With]
  cases hc : e.Context <;>
    simp [entryContext, hc, event.To, event.Builder.At, event.Builder.With, event.Builder.Log]

/-! ## The scenarios of the specification -/

/-- Scenario A: `Log("msg", "hello", "count", 3)`. -/
theorem scenario_A (sink : event.Sink) :
    egokit.Log [.str "msg", .str "hello", .str "count", .int 3] sink =
      (.ok none, sink ++ [⟨context.Background, none, "hello", [⟨"count", .int 3⟩]⟩]) := rfl

/-- Scenario B: `Log(ctx, "a", 1, "message", "done")`. -/
theorem scenario_B (c : context.Context) (sink : event.Sink) :
    egokit.Log [.ctx c, .str "a", .int 1, .str "message", .str "done"] sink =
      (.ok none, sink ++ [⟨c, none, "done", [⟨"a", .int 1⟩]⟩]) := rfl

/-- Scenario C: level Warning (ordinal 3), message `disk low`, one data
field. -/
theorem scenario_C (t : Time) (sink : event.Sink) :
    elogrus.Format ⟨none, t, 3, "disk low", [("path", .str "/tmp")]⟩ sink =
      ((none, none), sink ++ [⟨context.Background, some t, "disk low",
        [⟨"level", .int 3⟩, ⟨"path", .str "/tmp"⟩]⟩]) := rfl

/-- Scenario D and its kin: an unpaired last key panics at the index, a
non-string key at the assertion, also when the length is odd. -/
theorem scenario_D (sink : event.Sink) :
    egokit.Log [.str "onlykey"] sink = (.error .indexOutOfRange, sink) ∧
    egokit.Log [.int 1] sink = (.error .typeAssertion, sink) ∧
    egokit.Log [.str "a", .int 1, .int 2] sink = (.error .typeAssertion, sink) ∧
    egokit.Log [.str "a", .int 1, .str "b"] sink = (.error .indexOutOfRange, sink) :=
  ⟨rfl, rfl, rfl, rfl⟩

/-! ## The claims -/

/-- Claim C1. For every argument sequence whose pair part (after an optional
leading context) has even length and a string at every key position, `Log`
finalizes exactly one event; the Fields attached to it are exactly the input
pairs whose key is neither `msg` nor `message`, in input order (none added,
none dropped), so that its Field set holds, for each such key, the value of
the last pair with that key; its message is `fmt.Sprint` of the value of the
last pair keyed `msg` or `message`, or the empty string when there is none. -/
theorem log_emits_pairs_as_fields (keyvals : List GoValue) (sink : event.Sink)
    (h : WellShaped (pairPart keyvals)) :
    ∃ e : event.Event,
      (egokit.Log keyvals sink).2 = sink ++ [e] ∧
      e.labels = fieldPairs (pairsOf (pairPart keyvals)) ∧
      (∀ k v, (⟨k, v⟩ : event.Label) ∈ e.labels ↔
        ((k, v) ∈ pairsOf (pairPart keyvals) ∧ k ≠ "msg" ∧ k ≠ "message")) ∧
      (∀ k v, (⟨k, v⟩ : event.Label) ∈ e.fieldSet ↔
        (k ≠ "msg" ∧ k ≠ "message" ∧ lastValueOf k (pairsOf (pairPart keyvals)) = some v)) ∧
      e.message = messageOf (pairsOf (pairPart keyvals)) := by
  rw [Log_eq_logPairs, logPairs_wellShaped _ _ _ h]
  exact ⟨_, rfl, rfl, fun k v => mem_fieldPairs _ k v,
    fun k v => mem_fieldSet_fieldPairs _ k v, rfl⟩

theorem log_emits_pairs_as_fields_witness :
    WellShaped (pairPart [.str "msg", .str "hello", .str "count", .int 3]) ∧
    ∃ e : event.Event,
      (egokit.Log [.str "msg", .str "hello", .str "count", .int 3] []).2 = [] ++ [e] ∧
      e.labels = fieldPairs (pairsOf (pairPart [.str "msg", .str "hello", .str "count", .int 3])) ∧
      (∀ k v, (⟨k, v⟩ : event.Label) ∈ e.labels ↔
        ((k, v) ∈ pairsOf (pairPart [.str "msg", .str "hello", .str "count", .int 3]) ∧
          k ≠ "msg" ∧ k ≠ "message")) ∧
      (∀ k v, (⟨k, v⟩ : event.Label) ∈ e.fieldSet ↔
        (k ≠ "msg" ∧ k ≠ "message" ∧
          lastValueOf k (pairsOf (pairPart [.str "msg", .str "hello", .str "count", .int 3])) =
            some v)) ∧
      e.message = messageOf (pairsOf (pairPart [.str "msg", .str "hello", .str "count", .int 3])) :=
  ⟨by decide, log_emits_pairs_as_fields _ [] (by decide)⟩

/-- Claim C2. For every leveled entry, `Format` finalizes one event that
carries the entry's timestamp (set by `At(e.Time)`, not "now") and whose
message is the entry's `Message`. -/
theorem format_keeps_time_and_message (e : elogrus.Entry) (sink : event.Sink) :
    ∃ ev : event.Event,
      (elogrus.Format e sink).2 = sink ++ [ev] ∧
      ev.time = some e.Time ∧
      ev.message = e.Message := by
  rw [Format_eq]
  exact ⟨_, rfl, rfl, rfl⟩

/-- Claim C3, as the code has it.  For every leveled entry whose `Data`
mapping has no key equal to the reserved level key, the Fields attached to
the emitted event are the level Field, holding `int(e.Level)`, followed by one
Field per `Data` key with the mapped value; no Field name occurs twice, and
the event's Field set is these Fields. -/
theorem format_fields_without_level_clash (e : elogrus.Entry) (sink : event.Sink)
    (hmap : (e.Data.map Prod.fst).Nodup)
    (hlevel : internal.LevelKey.name ∉ e.Data.map Prod.fst) :
    ∃ ev : event.Event,
      (elogrus.Format e sink).2 = sink ++ [ev] ∧
      ev.labels = ⟨internal.LevelKey.name, .int (Int.ofNat e.Level.val)⟩ ::
        e.Data.map (fun p => ⟨p.1, p.2⟩) ∧
      (ev.labels.map event.Label.name).Nodup ∧
      ev.fieldSet = ev.labels := by
  rw [Format_eq]
  have hnames : ((internal.LevelKey.Of (Int.ofNat e.Level.val) ::
      e.Data.map (fun p => (⟨p.1, p.2⟩ : event.Label))).map event.Label.name).Nodup := by
    simp only [List.map_cons, List.map_map, List.nodup_cons]
    have hf : (event.Label.name ∘ fun p : String × GoValue => (⟨p.1, p.2⟩ : event.Label)) =
        Prod.fst := rfl
    rw [hf]
    exact ⟨hlevel, hmap⟩
  exact ⟨_, rfl, rfl, hnames, fieldSet_of_nodup _ hnames⟩

theorem format_fields_without_level_clash_witness :
    (([("path", GoValue.str "/tmp")] : List (String × GoValue)).map Prod.fst).Nodup ∧
    internal.LevelKey.name ∉ ([("path", GoValue.str "/tmp")] : List (String × GoValue)).map Prod.fst ∧
    ∃ ev : event.Event,
      (elogrus.Format ⟨none, 5, 3, "disk low", [("path", .str "/tmp")]⟩ []).2 = [] ++ [ev] ∧
      ev.labels = ⟨internal.LevelKey.name, .int (Int.ofNat (3 : Fin 4294967296).val)⟩ ::
        ([("path", GoValue.str "/tmp")] : List (String × GoValue)).map (fun p => ⟨p.1, p.2⟩) ∧
      (ev.labels.map event.Label.name).Nodup ∧
      ev.fieldSet = ev.labels :=
  ⟨by decide, by decide,
    format_fields_without_level_clash ⟨none, 5, 3, "disk low", [("path", .str "/tmp")]⟩ []
      (by decide) (by decide)⟩

/-- Claim C3 fails as stated: on an entry whose `Data` has the key `level`,
`Format` attaches two Fields named `level` (the ordinal and the data value),
and in the Field set the data value has replaced the ordinal. -/
theorem format_level_clash :
    (elogrus.Format ⟨none, 5, 3, "disk low", [("level", .str "x")]⟩ []).2 =
      [⟨context.Background, some 5, "disk low", [⟨"level", .int 3⟩, ⟨"level", .str "x"⟩]⟩] ∧
    ¬ ((([⟨"level", .int 3⟩, ⟨"level", .str "x"⟩] : List event.Label).map
        event.Label.name).Nodup) ∧
    (elogrus.Format ⟨none, 5, 3, "disk low", [("level", .str "x")]⟩ []).2.map
        event.Event.fieldSet = [[⟨"level", .str "x"⟩]] :=
  ⟨rfl, by decide, by decide⟩

/-- Claim C4. `Log` resolves its builder with `event.To` from the chosen
context and runs its loop over the pair part: for a sequence that starts with
a context these are that context and the elements from index 1 onward, for
any other sequence (empty, or first element not a context) the background
context and all elements.  So a well-shaped pair part yields one event bound
to the chosen context and made of the pair part, and only the first element
is consumed as a context: a second leading context stands at a key position
and fails the string assertion. -/
theorem log_context_choice (keyvals : List GoValue) (sink : event.Sink) :
    (egokit.Log keyvals sink =
      match egokit.logLoop (pairPart keyvals) (event.To (chosenContext keyvals)) "" with
      | .error f => (.error f, sink)
      | .ok (b, msg) => (.ok none, b.Log msg sink)) ∧
    (event.To (chosenContext keyvals)).ctx = chosenContext keyvals ∧
    (∀ (c : context.Context) (rest : List GoValue),
      chosenContext (.ctx c :: rest) = c ∧ pairPart (.ctx c :: rest) = rest) ∧
    chosenContext [] = context.Background ∧ pairPart [] = [] ∧
    ((∃ c rest, keyvals = .ctx c :: rest) ∨
      (chosenContext keyvals = context.Background ∧ pairPart keyvals = keyvals)) ∧
    ((WellShaped (pairPart keyvals) ∧
        egokit.Log keyvals sink = (.ok none, sink ++ [⟨chosenContext keyvals, none,
          messageOf (pairsOf (pairPart keyvals)), fieldPairs (pairsOf (pairPart keyvals))⟩])) ∨
      (¬ WellShaped (pairPart keyvals) ∧ ∃ f, egokit.Log keyvals sink = (.error f, sink))) ∧
    (∀ c : context.Context,
      egokit.Log [.ctx c] sink = (.ok none, sink ++ [⟨c, none, "", []⟩])) ∧
    egokit.Log [] sink = (.ok none, sink ++ [⟨context.Background, none, "", []⟩]) ∧
    (∀ (c d : context.Context) (rest : List GoValue),
      egokit.Log (.ctx c :: .ctx d :: rest) sink = (.error .typeAssertion, sink)) := by
  refine ⟨?_, rfl, fun c rest => ⟨rfl, rfl⟩, rfl, rfl, ?_, ?_, fun c => rfl, rfl, ?_⟩
  · cases keyvals with
    | nil => rfl
    | cons x rest => cases x <;> rfl
  · cases keyvals with
    | nil => exact Or.inr ⟨rfl, rfl⟩
    | cons x rest =>
      cases x with
      | ctx c => exact Or.inl ⟨c, rest, rfl⟩
      | _ => exact Or.inr ⟨rfl, rfl⟩
  · rcases Log_outcome keyvals sink with ⟨hw, h⟩ | ⟨hs, h⟩ | ⟨hs, hodd, h⟩
    · exact Or.inl ⟨hw, h⟩
    · exact Or.inr ⟨fun hw => hs hw.2, _, h⟩
    · exact Or.inr ⟨fun hw => by have := hw.1; omega, _, h⟩
  · intro c d rest
    rfl

/-- Claim C5. For every leveled entry, `Format` returns a nil byte slice and
a nil error. -/
theorem format_returns_nil_nil (e : elogrus.Entry) (sink : event.Sink) :
    (elogrus.Format e sink).1 = (none, none) := by
  rw [Format_eq]

/-- Claim C6. For every argument sequence whose pair part has even length
and a string at every key position, `Log` returns a nil error. -/
theorem log_returns_nil (keyvals : List GoValue) (sink : event.Sink)
    (h : WellShaped (pairPart keyvals)) :
    (egokit.Log keyvals sink).1 = .ok none := by
  rw [Log_eq_logPairs, logPairs_wellShaped _ _ _ h]

theorem log_returns_nil_witness :
    WellShaped (pairPart [.ctx ⟨7, "ctx"⟩, .str "a", .int 1, .str "message", .str "done"]) ∧
    (egokit.Log [.ctx ⟨7, "ctx"⟩, .str "a", .int 1, .str "message", .str "done"] []).1 =
      .ok none :=
  ⟨by decide, log_returns_nil _ [] (by decide)⟩

/-- Claim C7. Every call of `Log` either finalizes exactly one event, on
the builder resolved from the chosen context, and returns, or panics with the
sink unchanged, and never both; the second is what happens when the pair
sequence has odd length or a non-string key.  Every call of `Format`
finalizes exactly one event on the builder resolved from the entry's
context. -/
theorem one_event_or_fault (keyvals : List GoValue) (entry : elogrus.Entry)
    (sink : event.Sink) :
    ((WellShaped (pairPart keyvals) ∧
        (∃ e : event.Event, egokit.Log keyvals sink = (.ok none, sink ++ [e]) ∧
          e.ctx = chosenContext keyvals) ∧
        ¬ ∃ f, (egokit.Log keyvals sink).1 = .error f) ∨
      (¬ WellShaped (pairPart keyvals) ∧
        (∃ f, egokit.Log keyvals sink = (.error f, sink)) ∧
        ¬ ∃ r, (egokit.Log keyvals sink).1 = .ok r)) ∧
    (∃ ev : event.Event, elogrus.Format entry sink = ((none, none), sink ++ [ev]) ∧
      ev.ctx = entryContext entry) := by
  refine ⟨?_, ?_⟩
  · rw [Log_eq_logPairs]
    by_cases h : WellShaped (pairPart keyvals)
    · rw [logPairs_wellShaped _ _ _ h]
      exact Or.inl ⟨h, ⟨_, rfl, rfl⟩, by simp⟩
    · obtain ⟨f, hf⟩ := logPairs_not_wellShaped (chosenContext keyvals) _ sink h
      rw [hf]
      exact Or.inr ⟨h, ⟨f, rfl⟩, by simp⟩
  · rw [Format_eq]
    exact ⟨_, rfl, rfl⟩

/-- Claim C8, as the code has it.  `Log` completes without a panic exactly
when the pair part of its argument sequence has even length and a string at
every key position.  When some key position holds a non-string it panics at
the assertion `keyvals[i].(string)`; when every key position holds a string
and the length is odd it panics at the index `keyvals[i+1]`.  A panic leaves
the sink as it was. -/
theorem log_completes_iff_wellShaped (keyvals : List GoValue) (sink : event.Sink) :
    ((∃ r, (egokit.Log keyvals sink).1 = .ok r) ↔ WellShaped (pairPart keyvals)) ∧
    ((∃ f, egokit.Log keyvals sink = (.error f, sink)) ↔ ¬ WellShaped (pairPart keyvals)) ∧
    (egokit.Log keyvals sink = (.error .typeAssertion, sink) ↔
      ¬ StringKeys (pairPart keyvals)) ∧
    (egokit.Log keyvals sink = (.error .indexOutOfRange, sink) ↔
      (StringKeys (pairPart keyvals) ∧ (pairPart keyvals).length % 2 = 1)) ∧
    ((egokit.Log keyvals sink).1 = .error .typeAssertion ↔
      ¬ StringKeys (pairPart keyvals)) ∧
    ((egokit.Log keyvals sink).1 = .error .indexOutOfRange ↔
      (StringKeys (pairPart keyvals) ∧ (pairPart keyvals).length % 2 = 1)) := by
  rcases Log_outcome keyvals sink with ⟨hw, h⟩ | ⟨hs, h⟩ | ⟨hs, hodd, h⟩
  · have hev : ¬ (pairPart keyvals).length % 2 = 1 := by have := hw.1; omega
    have hs : StringKeys (pairPart keyvals) := hw.2
    rw [h]
    simp [hw, hs, hev]
  · have hw : ¬ WellShaped (pairPart keyvals) := fun hw => hs hw.2
    rw [h]
    simp [hw, hs]
  · have hw : ¬ WellShaped (pairPart keyvals) := fun hw => by have := hw.1; omega
    rw [h]
    simp [hw, hs, hodd]

/-- Claim C8 fails as stated: `Log("onlykey")` panics at the index
`keyvals[i+1]`, and a call with a non-string key panics at the assertion
`keyvals[i].(string)`. -/
theorem log_panics_on_malformed :
    egokit.Log [.str "onlykey"] [] = (.error .indexOutOfRange, []) ∧
    egokit.Log [.int 1, .str "v"] [] = (.error .typeAssertion, []) :=
  ⟨rfl, rfl⟩

/-- Claim C9. For every well-shaped pair sequence in which a key other than
`msg` and `message` occurs in more than one pair, the Field set of the
emitted event has exactly one Field with that name, holding the value of the
last pair with that key; Field names are unique within the Field set. -/
theorem log_duplicate_key_last_wins (keyvals : List GoValue) (sink : event.Sink) (k : String)
    (h : WellShaped (pairPart keyvals))
    (hk : k ≠ "msg" ∧ k ≠ "message")
    (hdup : 2 ≤ ((pairsOf (pairPart keyvals)).filter (fun p => decide (p.1 = k))).length) :
    ∃ (e : event.Event) (v : GoValue),
      (egokit.Log keyvals sink).2 = sink ++ [e] ∧
      lastValueOf k (pairsOf (pairPart keyvals)) = some v ∧
      e.fieldSet.filter (fun f => decide (f.name = k)) = [⟨k, v⟩] ∧
      (e.fieldSet.map event.Label.name).Nodup := by
  rw [Log_eq_logPairs, logPairs_wellShaped _ _ _ h]
  have hm : isMsgKey k = false := by simp [isMsgKey, hk.1, hk.2]
  cases hl : ((pairsOf (pairPart keyvals)).filter (fun p => decide (p.1 = k))).getLast? with
  | none =>
    rw [List.getLast?_eq_none_iff] at hl
    rw [hl] at hdup
    simp at hdup
  | some p =>
    have hp : p ∈ (pairsOf (pairPart keyvals)).filter (fun p => decide (p.1 = k)) :=
      List.mem_of_getLast?_eq_some hl
    have hpk : p.1 = k := by simpa using (List.mem_filter.1 hp).2
    refine ⟨_, p.2, rfl, by simp [lastValueOf, hl], ?_, fieldSet_names_nodup _⟩
    show (List.foldl event.setField [] (fieldPairs (pairsOf (pairPart keyvals)))).filter
      (fun f => decide (f.name = k)) = [⟨k, p.2⟩]
    rw [fieldSet_filter, filter_fieldPairs _ _ hm, List.getLast?_map, hl]
    simp [hpk]

theorem log_duplicate_key_last_wins_witness :
    WellShaped (pairPart [.str "a", .int 1, .str "msg", .str "m", .str "a", .int 2]) ∧
    ("a" ≠ "msg" ∧ "a" ≠ "message") ∧
    2 ≤ ((pairsOf (pairPart [.str "a", .int 1, .str "msg", .str "m", .str "a", .int 2])).filter
      (fun p => decide (p.1 = "a"))).length ∧
    ∃ (e : event.Event) (v : GoValue),
      (egokit.Log [.str "a", .int 1, .str "msg", .str "m", .str "a", .int 2] []).2 = [] ++ [e] ∧
      lastValueOf "a" (pairsOf (pairPart [.str "a", .int 1, .str "msg", .str "m", .str "a", .int 2]))
        = some v ∧
      e.fieldSet.filter (fun f => decide (f.name = "a")) = [⟨"a", v⟩] ∧
      (e.fieldSet.map event.Label.name).Nodup :=
  ⟨by decide, by decide, by decide,
    log_duplicate_key_last_wins _ [] "a" (by decide) (by decide) (by decide)⟩

/-- Claim C10. `Format` on an entry with a non-nil context resolves the
builder from exactly that context, and on an entry with a nil context from
the background context, whatever the entry's time, level, message and
data. -/
theorem format_context_choice (t : Time) (level : Fin 4294967296) (msg : String)
    (data : List (String × GoValue)) (sink : event.Sink) :
    (∀ c : context.Context, ∃ ev : event.Event,
      (elogrus.Format ⟨some c, t, level, msg, data⟩ sink).2 = sink ++ [ev] ∧ ev.ctx = c) ∧
    (∃ ev : event.Event,
      (elogrus.Format ⟨none, t, level, msg, data⟩ sink).2 = sink ++ [ev] ∧
        ev.ctx = context.Background) := by
  refine ⟨fun c => ?_, ?_⟩
  · rw [Format_eq]
    exact ⟨_, rfl, rfl⟩
  · rw [Format_eq]
    exact ⟨_, rfl, rfl⟩
